import Mathlib

/-!
Verification of the structural-extraction core of a .NET documentation
generator.  The definitions below are a shallow embedding of
`dotnet_parser.py` (class `DotNetParser` and dataclass `CSharpFile`),
of the enumeration helpers in `language_parser.py`, and of the
aggregate-structure consumer in `ai_doc_generator.py`.

File contents are modelled as `List Char`; the fixed regular expressions
of the source are realised as deterministic character-level matchers that
recognise the same strings: greedy character-class runs are consumed
maximally, and the one place where the Python engine's backtracking is
observable (the greedy return-type class of the method pattern) is
realised by trying split points longest-first, exactly the order the
engine explores them.
-/

abbrev Chars := List Char

/-- Python `\s` (ASCII range, as used by the source's patterns). -/
def isSpaceCh (c : Char) : Bool :=
  c = ' ' || c = '\t' || c = '\n' || c = '\r' || c = '\x0b' || c = '\x0c'

/-- Python `\w`: word characters. -/
def isWordCh (c : Char) : Bool :=
  c.isAlphanum || c = '_'

/-- Character class `[\w.]` of the namespace pattern. -/
def isNsCh (c : Char) : Bool :=
  isWordCh c || c = '.'

/-- Character class `[\w\s,<>]` of the base-list part of the class pattern. -/
def isBaseCh (c : Char) : Bool :=
  isWordCh c || isSpaceCh c || c = ',' || c = '<' || c = '>'

/-- Character class `[\w<>\[\],\s]` of the return-type part of the method
pattern. -/
def isRetCh (c : Char) : Bool :=
  isWordCh c || isSpaceCh c || c = '<' || c = '>' || c = '[' || c = ']' || c = ','

/-- Consume the literal `w` at the head of `s`, threading a consumed-count
accumulator. -/
def consumeLitN : Chars → Chars → Nat → Option (Chars × Nat)
  | [], s, n => some (s, n)
  | _ :: _, [], _ => none
  | l :: ls, c :: rest, n => if c = l then consumeLitN ls rest (n + 1) else none

/-- Consume a maximal run of whitespace, threading the consumed count. -/
def dropSpacesN : Chars → Nat → Chars × Nat
  | [], n => ([], n)
  | c :: rest, n => if isSpaceCh c then dropSpacesN rest (n + 1) else (c :: rest, n)

/-- Longest prefix satisfying `p`, with the remainder. -/
def spanCh (p : Char → Bool) : Chars → Chars × Chars
  | [] => ([], [])
  | c :: rest =>
    if p c then
      let (a, b) := spanCh p rest
      (c :: a, b)
    else ([], c :: rest)

/-- Keyword followed by at least one whitespace character (`kw\s+`),
whitespace consumed maximally. -/
def consumeKwSpaceN (kw : Chars) (s : Chars) (n : Nat) : Option (Chars × Nat) :=
  match consumeLitN kw s n with
  | none => none
  | some (s1, n1) =>
    match s1 with
    | [] => none
    | c :: rest => if isSpaceCh c then some (dropSpacesN rest (n1 + 1)) else none

/-- An optional alternation group `(?:kw1\s+|kw2\s+|...)?`: the first
alternative that fits is taken, otherwise the group matches nothing.
The source's keywords are pairwise non-prefixes of one another and are
distinct from every token the patterns continue with, so committing to a
fitting alternative agrees with the engine's backtracking. -/
def consumeAltsN (alts : List Chars) (s : Chars) (n : Nat) : Chars × Nat :=
  match alts with
  | [] => (s, n)
  | kw :: rest =>
    match consumeKwSpaceN kw s n with
    | some r => r
    | none => consumeAltsN rest s n

def kwPublic : Chars := "public".data
def kwPrivate : Chars := "private".data
def kwInternal : Chars := "internal".data
def kwProtected : Chars := "protected".data
def kwStatic : Chars := "static".data
def kwAbstract : Chars := "abstract".data
def kwSealed : Chars := "sealed".data
def kwAsync : Chars := "async".data
def kwClass : Chars := "class".data
def kwInterface : Chars := "interface".data
def kwEnum : Chars := "enum".data
def kwNamespace : Chars := "namespace".data

/-- Tail `(?:\s*:\s*[\w\s,<>]+)?\s*\{` of the class/interface patterns
(`withBase = true`), or `\s*\{` of the enum pattern (`withBase = false`).
`name` is the captured declaration name, `n` the count consumed so far;
the returned count runs up to and including the opening brace, giving the
length of `match.group(0)`. -/
def finishDecl (withBase : Bool) (name : Chars) (s : Chars) (n : Nat) :
    Option (Chars × Nat) :=
  let (s1, n1) := dropSpacesN s n
  match s1 with
  | '{' :: _ => some (name, n1 + 1)
  | ':' :: s2 =>
    if withBase then
      let (bs, s3) := spanCh isBaseCh s2
      if bs.isEmpty then none
      else
        match s3 with
        | '{' :: _ => some (name, n1 + 1 + bs.length + 1)
        | _ => none
    else none
  | _ => none

/-- The class pattern of `_parse_csharp_file`:
`(?:public\s+|private\s+|internal\s+|protected\s+)?(?:static\s+)?(?:abstract\s+)?(?:sealed\s+)?class\s+(\w+)(?:\s*:\s*[\w\s,<>]+)?\s*\{`.
Returns the captured name and the length of the whole match. -/
def matchClassAt (s : Chars) : Option (Chars × Nat) :=
  let (s1, n1) := consumeAltsN [kwPublic, kwPrivate, kwInternal, kwProtected] s 0
  let (s2, n2) := consumeAltsN [kwStatic] s1 n1
  let (s3, n3) := consumeAltsN [kwAbstract] s2 n2
  let (s4, n4) := consumeAltsN [kwSealed] s3 n3
  match consumeKwSpaceN kwClass s4 n4 with
  | none => none
  | some (s5, n5) =>
    let (nm, s6) := spanCh isWordCh s5
    if nm.isEmpty then none else finishDecl true nm s6 (n5 + nm.length)

/-- The interface pattern:
`(?:public\s+|private\s+|internal\s+)?interface\s+(\w+)(?:\s*:\s*[\w\s,<>]+)?\s*\{`. -/
def matchInterfaceAt (s : Chars) : Option (Chars × Nat) :=
  let (s1, n1) := consumeAltsN [kwPublic, kwPrivate, kwInternal] s 0
  match consumeKwSpaceN kwInterface s1 n1 with
  | none => none
  | some (s2, n2) =>
    let (nm, s3) := spanCh isWordCh s2
    if nm.isEmpty then none else finishDecl true nm s3 (n2 + nm.length)

/-- The enum pattern: `(?:public\s+|private\s+|internal\s+)?enum\s+(\w+)\s*\{`. -/
def matchEnumAt (s : Chars) : Option (Chars × Nat) :=
  let (s1, n1) := consumeAltsN [kwPublic, kwPrivate, kwInternal] s 0
  match consumeKwSpaceN kwEnum s1 n1 with
  | none => none
  | some (s2, n2) =>
    let (nm, s3) := spanCh isWordCh s2
    if nm.isEmpty then none else finishDecl false nm s3 (n2 + nm.length)

/-- The namespace pattern `namespace\s+([\w.]+)` tried at one position. -/
def matchNamespaceAt (s : Chars) : Option Chars :=
  match consumeKwSpaceN kwNamespace s 0 with
  | none => none
  | some (s1, _) =>
    let (nm, _) := spanCh isNsCh s1
    if nm.isEmpty then none else some nm

/-- `re.search`: the namespace captured at the leftmost matching position. -/
def searchNamespace : Chars → Option Chars
  | [] => none
  | c :: rest =>
    match matchNamespaceAt (c :: rest) with
    | some nm => some nm
    | none => searchNamespace rest

/-- Raw capture of one method-pattern match: name, return-type group and
the text between the parameter parentheses. -/
structure MethodRaw where
  name : Chars
  retTy : Chars
  params : Chars
deriving DecidableEq

/-- Tail `\s+(\w+)\s*\(([^)]*)\)` of the method pattern, after the
return-type group `g1` has been fixed. -/
def afterRet (g1 : Chars) (s : Chars) (n : Nat) : Option (MethodRaw × Nat) :=
  match s with
  | [] => none
  | c :: rest =>
    if isSpaceCh c then
      let (s1, n1) := dropSpacesN rest (n + 1)
      let (nm, s2) := spanCh isWordCh s1
      if nm.isEmpty then none
      else
        let (s3, n3) := dropSpacesN s2 (n1 + nm.length)
        match s3 with
        | '(' :: s4 =>
          let (ps, s5) := spanCh (fun c => !(c = ')')) s4
          match s5 with
          | ')' :: _ => some (⟨nm, g1, ps⟩, n3 + 1 + ps.length + 1)
          | _ => none
        | _ => none
    else none

/-- One attempt of the greedy return-type group `([\w<>\[\],\s]+\??)` at a
given split length, the optional `?` tried greedily. -/
def tryRetAt (len : Nat) (s : Chars) (n : Nat) : Option (MethodRaw × Nat) :=
  let g1 := s.take len
  let rest := s.drop len
  match rest with
  | '?' :: rest2 =>
    match afterRet (g1 ++ ['?']) rest2 (n + len + 1) with
    | some r => some r
    | none => afterRet g1 rest (n + len)
  | _ => afterRet g1 rest (n + len)

/-- Backtracking over the greedy return-type group: split lengths are tried
longest-first, as the engine does. -/
def tryRetSplit (s : Chars) (n : Nat) : Nat → Option (MethodRaw × Nat)
  | 0 => none
  | k + 1 =>
    match tryRetAt (k + 1) s n with
    | some r => some r
    | none => tryRetSplit s n k

/-- Everything of the method pattern after the modifier keywords. -/
def afterMods (s : Chars) (n : Nat) : Option (MethodRaw × Nat) :=
  let (reg, _) := spanCh isRetCh s
  tryRetSplit s n reg.length

/-- Optional `(?:kw\s+)?` with genuine backtracking: if the consuming
branch makes the continuation fail, the group is retried empty. -/
def tryOptKw (kw : Chars) (s : Chars) (n : Nat)
    (k : Chars → Nat → Option (MethodRaw × Nat)) : Option (MethodRaw × Nat) :=
  match consumeKwSpaceN kw s n with
  | some (s1, n1) =>
    match k s1 n1 with
    | some r => some r
    | none => k s n
  | none => k s n

/-- Leading mandatory alternation `(?:public|private|internal|protected|static)\s+`
of the method pattern. -/
def consumeAnyKwSpace (alts : List Chars) (s : Chars) : Option (Chars × Nat) :=
  match alts with
  | [] => none
  | kw :: rest =>
    match consumeKwSpaceN kw s 0 with
    | some r => some r
    | none => consumeAnyKwSpace rest s

/-- The method pattern of `_extract_methods`:
`(?:public|private|internal|protected|static)\s+(?:static\s+)?(?:async\s+)?([\w<>\[\],\s]+\??)\s+(\w+)\s*\([^)]*\)`.
The parameter text is the capture of `\(([^)]*)\)` searched in
`match.group(0)`; the first parenthesis of the match is the parameter
list's, since no earlier pattern part can contain one. -/
def matchMethodAt (s : Chars) : Option (MethodRaw × Nat) :=
  match consumeAnyKwSpace [kwPublic, kwPrivate, kwInternal, kwProtected, kwStatic] s with
  | none => none
  | some (s1, n1) =>
    tryOptKw kwStatic s1 n1 (fun s2 n2 =>
      tryOptKw kwAsync s2 n2 afterMods)

/-- `re.finditer` for the declaration patterns: scan left to right, record
`(start, name, length)` for each match and continue at its end. The
source's patterns always consume at least one character. -/
def scanDeclsAux (f : Chars → Option (Chars × Nat)) :
    Chars → Nat → Nat → List (Nat × Chars × Nat)
  | [], _, _ => []
  | c :: rest, pos, skip =>
    match skip with
    | k + 1 => scanDeclsAux f rest (pos + 1) k
    | 0 =>
      match f (c :: rest) with
      | some (nm, len) => (pos, nm, len) :: scanDeclsAux f rest (pos + 1) (len - 1)
      | none => scanDeclsAux f rest (pos + 1) 0

def scanDecls (f : Chars → Option (Chars × Nat)) (s : Chars) :
    List (Nat × Chars × Nat) :=
  scanDeclsAux f s 0 0

/-- `re.finditer` for the method pattern; positions are not used by the
source, so only the raw captures are collected. -/
def scanMethodsAux : Chars → Nat → List MethodRaw
  | [], _ => []
  | c :: rest, skip =>
    match skip with
    | k + 1 => scanMethodsAux rest k
    | 0 =>
      match matchMethodAt (c :: rest) with
      | some (m, len) => m :: scanMethodsAux rest (len - 1)
      | none => scanMethodsAux rest 0

/-- Python `str.strip()`. -/
def stripCh (s : Chars) : Chars :=
  ((s.dropWhile isSpaceCh).reverse.dropWhile isSpaceCh).reverse

/-- Python `str.split()` with no separator: whitespace-delimited tokens,
empties dropped. `acc` holds the current token reversed. -/
def splitWsAux (acc : Chars) : Chars → List Chars
  | [] => if acc.isEmpty then [] else [acc.reverse]
  | c :: rest =>
    if isSpaceCh c then
      if acc.isEmpty then splitWsAux [] rest
      else acc.reverse :: splitWsAux [] rest
    else splitWsAux (c :: acc) rest

/-- Python `str.split(',')`: fragments between commas, empties kept. -/
def splitComma (acc : Chars) : Chars → List Chars
  | [] => [acc.reverse]
  | c :: rest =>
    if c = ',' then acc.reverse :: splitComma [] rest
    else splitComma (c :: acc) rest

/-- A `(type, name)` parameter pair as built by `_extract_methods`. -/
structure Param where
  ptype : Chars
  pname : Chars
deriving DecidableEq

/-- The parameter loop of `_extract_methods` (lines 219-232): split the
parenthesized text on commas, strip each fragment, split it on whitespace
and keep `(parts[0], parts[1])` only when at least two tokens exist. -/
def parseParameters (ps : Chars) : List Param :=
  if (stripCh ps).isEmpty then []
  else
    (splitComma [] ps).filterMap (fun frag =>
      let f := stripCh frag
      if f.isEmpty then none
      else
        match splitWsAux [] f with
        | t0 :: t1 :: _ => some ⟨t0, t1⟩
        | _ => none)

structure MethodInfo where
  name : Chars
  returnType : Chars
  parameters : List Param
deriving DecidableEq

/-- `_extract_methods`: every match of the method pattern in the class
body yields one entry; the return type is stripped. -/
def extractMethods (body : Chars) : List MethodInfo :=
  (scanMethodsAux body 0).map (fun m =>
    { name := m.name, returnType := stripCh m.retTy,
      parameters := parseParameters m.params })

/-- The brace-balance loop of `_extract_class_info` (lines 177-186):
`i` is the running absolute index, `cnt` the running brace count, `inC`
the `in_class` flag. Returns the absolute index of the closing brace. -/
def findCloseAux : Chars → Nat → Int → Bool → Option Nat
  | [], _, _, _ => none
  | c :: rest, i, cnt, inC =>
    if c = '{' then findCloseAux rest (i + 1) (cnt + 1) true
    else if c = '}' then
      let cnt2 := cnt - 1
      if cnt2 = 0 ∧ inC then some i else findCloseAux rest (i + 1) cnt2 inC
    else findCloseAux rest (i + 1) cnt inC

structure ClassInfo where
  name : Chars
  methods : List MethodInfo
  fullCode : Chars
deriving DecidableEq

structure InterfaceInfo where
  name : Chars
deriving DecidableEq

structure EnumInfo where
  name : Chars
deriving DecidableEq

/-- `_extract_class_info` for a match at absolute position `start` of
length `len` capturing `nm`: scan for the closing brace from the match
position; when it is found the slice up to and including it is the class
body and methods are extracted from it, otherwise `methods` keeps its
initial empty value. `full_code` is `match.group(0) + "..."`. -/
def extractClassInfoAt (content : Chars) (start : Nat) (nm : Chars) (len : Nat) :
    ClassInfo :=
  let tail := content.drop start
  let methods :=
    match findCloseAux tail start 0 false with
    | some i => extractMethods (tail.take (i + 1 - start))
    | none => []
  { name := nm, methods := methods, fullCode := tail.take len ++ "...".data }

/-- The dataclass `CSharpFile`; the entity lists default to `None`
(`Option.none`) exactly as in the source. -/
structure CSharpFile where
  path : Chars
  relativePath : Chars
  namespaceName : Option Chars := none
  classes : Option (List ClassInfo) := none
  interfaces : Option (List InterfaceInfo) := none
  enums : Option (List EnumInfo) := none
deriving DecidableEq

/-- `CSharpFile.__post_init__`: replace absent lists by empty ones. -/
def postInit (f : CSharpFile) : CSharpFile :=
  { f with
    classes := some (f.classes.getD []),
    interfaces := some (f.interfaces.getD []),
    enums := some (f.enums.getD []) }

/-- Construction `CSharpFile(path=..., relative_path=...)` as performed in
`find_all_csharp_files`; `__post_init__` runs at construction. -/
def mkCSharpFile (path rel : Chars) : CSharpFile :=
  postInit { path := path, relativePath := rel }

/-- `_parse_csharp_file`: read the content and extract namespace, classes,
interfaces and enums. A failing read raises inside the `try`, is caught,
and leaves the record untouched (modelled by `content = none`). -/
def parseCSharpFileWith (f : CSharpFile) (content : Option Chars) : CSharpFile :=
  match content with
  | none => f
  | some cd =>
    { f with
      namespaceName :=
        match searchNamespace cd with
        | some ns => some ns
        | none => f.namespaceName,
      classes := some (f.classes.getD [] ++
        (scanDecls matchClassAt cd).map (fun t =>
          extractClassInfoAt cd t.1 t.2.1 t.2.2)),
      interfaces := some (f.interfaces.getD [] ++
        (scanDecls matchInterfaceAt cd).map (fun t =>
          ({ name := t.2.1 } : InterfaceInfo))),
      enums := some (f.enums.getD [] ++
        (scanDecls matchEnumAt cd).map (fun t =>
          ({ name := t.2.1 } : EnumInfo))) }

/-! ### Filesystem model and enumeration -/

/-- A directory tree entry; a file's `content` is `none` when opening or
reading it raises (unreadable file, or a directory matching the glob). -/
inductive FSEntry where
  | file (name : Chars) (content : Option Chars)
  | dir (name : Chars) (children : List FSEntry)

/-- A root path with its path components; `root = none` models a root
path that does not exist. -/
structure FileSystem where
  rootParts : List Chars
  root : Option (List FSEntry)

/-- A file reached by `Path.rglob`: its path components relative to the
root, and its content. -/
structure WalkedFile where
  relParts : List Chars
  content : Option Chars
deriving DecidableEq

mutual
def walkEntry (pre : List Chars) : FSEntry → List WalkedFile
  | .file nm c => [⟨pre ++ [nm], c⟩]
  | .dir nm children => walkEntries (pre ++ [nm]) children
def walkEntries (pre : List Chars) : List FSEntry → List WalkedFile
  | [] => []
  | e :: es => walkEntry pre e ++ walkEntries pre es
end

/-- All files below the root (`Path.rglob("*")` restricted to files);
empty when the root does not exist. -/
def walkAll (fs : FileSystem) : List WalkedFile :=
  match fs.root with
  | none => []
  | some es => walkEntries [] es

def fileName (w : WalkedFile) : Chars :=
  w.relParts.getLastD []

/-- `startsWithCh pat s`: `pat` is a prefix of `s`. -/
def startsWithCh : Chars → Chars → Bool
  | [], _ => true
  | _ :: _, [] => false
  | a :: as, b :: bs => a = b && startsWithCh as bs

def endsWithCh (suffix s : Chars) : Bool :=
  startsWithCh suffix.reverse s.reverse

/-- Python `sub in s`: contiguous-substring test. -/
def containsSeq (pat : Chars) (s : Chars) : Bool :=
  match s with
  | [] => pat.isEmpty
  | _ :: rest => startsWithCh pat s || containsSeq pat rest

/-- The exclude set of `find_all_csharp_files` (lines 56-60), identical in
`language_parser.DotNetParser`. -/
def csExcludeDirs : List Chars :=
  ["bin".data, "obj".data, "node_modules".data, ".git".data, ".vs".data,
   "packages".data, "TestResults".data, ".idea".data, ".vscode".data,
   "docs".data, "Documentation".data]

/-- `any(excluded in cs_file.parts for excluded in exclude_dirs)`: the
test runs over the parts of the absolute path, root components included. -/
def isExcluded (fs : FileSystem) (w : WalkedFile) : Bool :=
  (fs.rootParts ++ w.relParts).any (fun p => csExcludeDirs.contains p)

/-- The glob `*.cs` applied to the file name. -/
def globCs (w : WalkedFile) : Bool :=
  endsWithCh ".cs".data (fileName w)

/-- Posix rendering of a parts list, as `str(path)` produces it. -/
def joinParts : List Chars → Chars
  | [] => []
  | [p] => p
  | p :: q :: rest => p ++ '/' :: joinParts (q :: rest)

def pathOf (fs : FileSystem) (w : WalkedFile) : Chars :=
  joinParts (fs.rootParts ++ w.relParts)

/-- The `rglob("*.cs")` loop with its exclusion filter (lines 81-84). -/
def candidateFiles (fs : FileSystem) : List WalkedFile :=
  (walkAll fs).filter (fun w => globCs w && !(isExcluded fs w))

/-- `find_all_csharp_files`: each surviving file is turned into a record,
parsed, and appended unconditionally (lines 86-94); a missing root makes
the function print an error and return `[]` (lines 63-65). -/
def findAllCSharpFiles (fs : FileSystem) : List CSharpFile :=
  match fs.root with
  | none => []
  | some _ =>
    (candidateFiles fs).map (fun w =>
      parseCSharpFileWith
        (mkCSharpFile (pathOf fs w) (joinParts w.relParts)) w.content)

/-- `find_all_csharp_files` with its outcome made explicit in an error
monad: no branch of the source raises, so every branch is `Except.ok`;
in particular the missing-root branch is the `return []` of line 65. -/
def findAllCSharpFilesE (fs : FileSystem) : Except Chars (List CSharpFile) :=
  if fs.root.isNone then Except.ok []
  else Except.ok (findAllCSharpFiles fs)

/-- `find_solution_files`: every `*.sln` path whose string rendering does
not contain `".git"`; the general exclude set is not consulted. -/
def findSolutionFiles (fs : FileSystem) : List Chars :=
  ((walkAll fs).filter (fun w =>
    endsWithCh ".sln".data (fileName w) &&
      !(containsSeq ".git".data (pathOf fs w)))).map (pathOf fs)

/-- `find_project_files`: same for `*.csproj`. -/
def findProjectFiles (fs : FileSystem) : List Chars :=
  ((walkAll fs).filter (fun w =>
    endsWithCh ".csproj".data (fileName w) &&
      !(containsSeq ".git".data (pathOf fs w)))).map (pathOf fs)

/-! ### Aggregate structure -/

structure FileSummary where
  path : Chars
  relativePath : Chars
  namespaceName : Option Chars
  classesCount : Nat
  interfacesCount : Nat
  enumsCount : Nat
deriving DecidableEq

structure ProjectStructure where
  rootPath : Chars
  solutionFiles : List Chars
  projectFiles : List Chars
  csharpFiles : List FileSummary
deriving DecidableEq

/-- `get_project_structure`: per-file summaries for every parsed file. -/
def getProjectStructure (rootPath : Chars) (slnFiles projFiles : List Chars)
    (files : List CSharpFile) : ProjectStructure :=
  { rootPath := rootPath, solutionFiles := slnFiles, projectFiles := projFiles,
    csharpFiles := files.map (fun f =>
      { path := f.path, relativePath := f.relativePath,
        namespaceName := f.namespaceName,
        classesCount := (f.classes.getD []).length,
        interfacesCount := (f.interfaces.getD []).length,
        enumsCount := (f.enums.getD []).length }) }

/-- The per-file listing embedded in the overview prompt by
`generate_project_overview` (`[:20]` at line 186): relative path and
class count of the first twenty summaries. -/
def overviewListing (ps : ProjectStructure) : List (Chars × Nat) :=
  (ps.csharpFiles.take 20).map (fun fi => (fi.relativePath, fi.classesCount))

/-- The `C# Files:` count printed into the same prompt: the length of the
full, uncapped summary list. -/
def overviewCSharpFileCount (ps : ProjectStructure) : Nat :=
  ps.csharpFiles.length

/-! ### Specification-side predicates for the brace scan -/

def braceVal (c : Char) : Int :=
  if c = '{' then 1 else if c = '}' then -1 else 0

def braceBal : Chars → Int
  | [] => 0
  | c :: rest => braceVal c + braceBal rest

/-- The spec's description of block closing: at index `k` stands a closing
delimiter, the running balance of the text up to and including it is zero,
and the balance was positive at some earlier point. -/
def ClosesAt (s : Chars) (k : Nat) : Prop :=
  ∃ h : k < s.length, s.get ⟨k, h⟩ = '}' ∧ braceBal (s.take (k + 1)) = 0 ∧
    ∃ j ≤ k, 0 < braceBal (s.take j)

/-- Closing condition relative to a running count `cnt` and `in_class`
flag `inC`, used to characterise `findCloseAux` by induction. -/
def CF (s : Chars) (cnt : Int) (inC : Bool) (k : Nat) : Prop :=
  ∃ h : k < s.length, s.get ⟨k, h⟩ = '}' ∧ cnt + braceBal (s.take (k + 1)) = 0 ∧
    (inC = true ∨ '{' ∈ s.take k)

/-! ### Concrete inputs used by the claims -/

/-- The spec's end-to-end scenario file. -/
def c5content : Chars :=
  "namespace App.Models \x7b public class Order \x7b public int GetTotal(int qty, decimal price) \x7b ... \x7d \x7d \x7d".data

/-- A class match with no closeable block: the opening brace is never
balanced. -/
def c4cex : Chars := "public class Foo \x7b".data

/-- A small file with one closeable block, for instantiating the block
scan characterisation. -/
def c4sample : Chars := "class A \x7b \x7d".data

/-- A file with zero declarations of any kind. -/
def c6content : Chars := "int x = 1;".data

/-- A root path that does not exist. -/
def fsAbsent : FileSystem := ⟨["missing".data], none⟩

/-- A second absent root path. -/
def fsAbsent2 : FileSystem := ⟨["gone".data], none⟩

/-- A repository whose only candidate file cannot be read. -/
def fsUnreadable : FileSystem :=
  ⟨["repo".data], some [.file "Bad.cs".data none]⟩

/-- A repository with an unreadable candidate below a subdirectory. -/
def fsMixed : FileSystem :=
  ⟨["app".data], some [.dir "src".data [.file "Bad.cs".data none]]⟩

def wBad : WalkedFile := ⟨["src".data, "Bad.cs".data], none⟩

/-- The spec's enumeration scenario: `bin/Debug/Generated.cs` and
`src/Order.cs`. -/
def fsDemo : FileSystem :=
  ⟨["repo".data], some
    [.dir "bin".data [.dir "Debug".data [.file "Generated.cs".data (some [])]],
     .dir "src".data [.file "Order.cs".data (some [])]]⟩

def wOrder : WalkedFile := ⟨["src".data, "Order.cs".data], some []⟩

/-- Build descriptors placed below excluded directory names. -/
def fsBuild : FileSystem :=
  ⟨["proj".data], some
    [.dir "bin".data [.file "App.sln".data (some [])],
     .dir "packages".data [.file "Lib.csproj".data (some [])]]⟩

def wSln : WalkedFile := ⟨["bin".data, "App.sln".data], some []⟩

def wProj : WalkedFile := ⟨["packages".data, "Lib.csproj".data], some []⟩

/-! ### Synthetic nested-class family for the method-attribution property -/

/-- One method declaration with a body, 24 characters. -/
def methodDeclD : Chars := "public int M(int a) \x7b \x7d ".data

/-- Header of the outer type, 21 characters, the match itself 20. -/
def outerHeaderD : Chars := "public class Outer \x7b ".data

/-- Header of the inner, nested type. -/
def innerHeaderD : Chars := "public class Inner \x7b ".data

/-- Closing braces of the inner and the outer block. -/
def nestedCloseD : Chars := "\x7d \x7d".data

/-- `n` concatenated copies of the method declaration. -/
def repD : Nat → Chars
  | 0 => []
  | n + 1 => methodDeclD ++ repD n

/-- An outer type with `n` methods at the top level of its block and an
inner type with `m` methods nested inside that block. -/
def mkNested (n m : Nat) : Chars :=
  outerHeaderD ++ repD n ++ innerHeaderD ++ repD m ++ nestedCloseD

/-- The raw capture produced by each copy of `methodDeclD`. -/
def methodRawD : MethodRaw := ⟨['M'], "int".data, "int a".data⟩

/-- The method entry produced by each copy of `methodDeclD`. -/
def methodEntryD : MethodInfo :=
  { name := ['M'], returnType := "int".data,
    parameters := [{ ptype := "int".data, pname := ['a'] }] }

/-! ### Helper lemmas -/

theorem parse_preserves_path (f : CSharpFile) (c : Option Chars) :
    (parseCSharpFileWith f c).path = f.path := by
  cases c <;> rfl

theorem parse_none_id (f : CSharpFile) :
    parseCSharpFileWith f none = f := rfl

theorem mkCSharpFile_fields (p r : Chars) :
    (mkCSharpFile p r).path = p ∧ (mkCSharpFile p r).relativePath = r ∧
    (mkCSharpFile p r).namespaceName = none ∧
    (mkCSharpFile p r).classes = some [] ∧
    (mkCSharpFile p r).interfaces = some [] ∧
    (mkCSharpFile p r).enums = some [] :=
  ⟨rfl, rfl, rfl, rfl, rfl, rfl⟩

/-! ### Claim theorems -/

/-- Claim C1, counterexample: for the concrete absent root `fsAbsent`,
`find_all_csharp_files` returns the ordinary value `[]` rather than
raising: its result is `Except.ok`, not `Except.error`, so enumeration on
an absent root is not fatal and no `NotFoundError` propagates. -/
theorem c1_counterexample : findAllCSharpFilesE fsAbsent = Except.ok [] := rfl

/-- Claim C1, amended: if the root path does not exist,
`find_all_csharp_files` reports the error (a printed message) and returns
an empty list as a normal, non-raising result; the run continues. -/
theorem c1_absent_root_returns_empty (fs : FileSystem) (h : fs.root = none) :
    findAllCSharpFilesE fs = Except.ok [] := by
  simp [findAllCSharpFilesE, h]

/-- Claim C1, witness for the amended theorem at a second concrete absent
root. -/
theorem c1_witness :
    fsAbsent2.root = none ∧ findAllCSharpFilesE fsAbsent2 = Except.ok [] :=
  ⟨rfl, c1_absent_root_returns_empty fsAbsent2 rfl⟩

/-- Claim C2: for every directory tree, the enumerator's output includes a
record for every walked file whose name matches `*.cs` and whose path
contains no excluded directory component, and every output record stems
from such a file — files under `bin`, `obj`, `node_modules`, `.git`,
`.vs`, `packages`, `TestResults`, `.idea`, `.vscode`, `docs` or
`Documentation` never appear. -/
theorem c2_enumeration_filter (fs : FileSystem) :
    (∀ w ∈ walkAll fs, globCs w = true → isExcluded fs w = false →
      ∃ r ∈ findAllCSharpFiles fs, r.path = pathOf fs w) ∧
    (∀ r ∈ findAllCSharpFiles fs, ∃ w ∈ walkAll fs,
      r.path = pathOf fs w ∧ globCs w = true ∧ isExcluded fs w = false) := by
  have hfind : ∀ es, fs.root = some es →
      findAllCSharpFiles fs = (candidateFiles fs).map (fun w =>
        parseCSharpFileWith
          (mkCSharpFile (pathOf fs w) (joinParts w.relParts)) w.content) := by
    intro es h
    simp [findAllCSharpFiles, h]
  constructor
  · intro w hw hcs hex
    have hcand : w ∈ candidateFiles fs := by
      simp [candidateFiles, List.mem_filter, hw, hcs, hex]
    cases hroot : fs.root with
    | none => simp [walkAll, hroot] at hw
    | some es =>
      refine ⟨parseCSharpFileWith
        (mkCSharpFile (pathOf fs w) (joinParts w.relParts)) w.content, ?_, ?_⟩
      · rw [hfind es hroot]
        exact List.mem_map_of_mem _ hcand
      · rw [parse_preserves_path]
        rfl
  · intro r hr
    cases hroot : fs.root with
    | none => simp [findAllCSharpFiles, hroot] at hr
    | some es =>
      rw [hfind es hroot] at hr
      obtain ⟨w, hwc, hw⟩ := List.mem_map.mp hr
      have hws := List.mem_filter.mp hwc
      refine ⟨w, hws.1, ?_, ?_, ?_⟩
      · rw [← hw, parse_preserves_path]
        rfl
      · have := hws.2
        simp only [Bool.and_eq_true, Bool.not_eq_true'] at this
        exact this.1
      · have := hws.2
        simp only [Bool.and_eq_true, Bool.not_eq_true'] at this
        exact this.2

/-- Claim C2, witness: in the spec's scenario tree, `src/Order.cs` is
walked, matches the glob, is not excluded, and a record for it appears in
the output. -/
theorem c2_witness :
    wOrder ∈ walkAll fsDemo ∧ globCs wOrder = true ∧
    isExcluded fsDemo wOrder = false ∧
    ∃ r ∈ findAllCSharpFiles fsDemo, r.path = pathOf fsDemo wOrder := by
  have h1 : wOrder ∈ walkAll fsDemo := by decide
  have h2 : globCs wOrder = true := by decide
  have h3 : isExcluded fsDemo wOrder = false := by decide
  exact ⟨h1, h2, h3, (c2_enumeration_filter fsDemo).1 wOrder h1 h2 h3⟩

/-- Claim C3, counterexample: `repo/Bad.cs` cannot be read, the failure is
caught inside `_parse_csharp_file`, yet the file's record is NOT omitted
from the aggregate — `find_all_csharp_files` still returns one record for
it, carrying the default empty structure. -/
theorem c3_counterexample :
    findAllCSharpFiles fsUnreadable =
      [{ path := "repo/Bad.cs".data, relativePath := "Bad.cs".data,
         namespaceName := none, classes := some [],
         interfaces := some [], enums := some [] }] := by decide

/-- Claim C3, amended: when extraction on a single file fails, the failure
is caught and logged and that file's record is RETAINED in the aggregate
with its default empty structure (no namespace, empty entity lists); every
candidate file contributes exactly one record, so a single failing file
never makes the whole run fail. -/
theorem c3_failed_file_retained (fs : FileSystem) :
    (findAllCSharpFiles fs).length = (candidateFiles fs).length ∧
    ∀ w ∈ candidateFiles fs, w.content = none →
      mkCSharpFile (pathOf fs w) (joinParts w.relParts) ∈ findAllCSharpFiles fs ∧
      (mkCSharpFile (pathOf fs w) (joinParts w.relParts)).namespaceName = none ∧
      (mkCSharpFile (pathOf fs w) (joinParts w.relParts)).classes = some [] ∧
      (mkCSharpFile (pathOf fs w) (joinParts w.relParts)).interfaces = some [] ∧
      (mkCSharpFile (pathOf fs w) (joinParts w.relParts)).enums = some [] := by
  constructor
  · cases hroot : fs.root with
    | none => simp [findAllCSharpFiles, candidateFiles, walkAll, hroot]
    | some es => simp [findAllCSharpFiles, hroot]
  · intro w hw hnone
    refine ⟨?_, rfl, rfl, rfl, rfl⟩
    cases hroot : fs.root with
    | none =>
      have : w ∈ walkAll fs := (List.mem_filter.mp hw).1
      simp [walkAll, hroot] at this
    | some es =>
      have : parseCSharpFileWith
          (mkCSharpFile (pathOf fs w) (joinParts w.relParts)) w.content ∈
          findAllCSharpFiles fs := by
        simp only [findAllCSharpFiles, hroot]
        exact List.mem_map_of_mem _ hw
      rwa [hnone, parse_none_id] at this

/-- Claim C3, witness: `app/src/Bad.cs` is a candidate, is unreadable,
and its default-valued record is present in the output. -/
theorem c3_witness :
    wBad ∈ candidateFiles fsMixed ∧ wBad.content = none ∧
    (mkCSharpFile (pathOf fsMixed wBad) (joinParts wBad.relParts) ∈
        findAllCSharpFiles fsMixed ∧
      (mkCSharpFile (pathOf fsMixed wBad) (joinParts wBad.relParts)).namespaceName = none ∧
      (mkCSharpFile (pathOf fsMixed wBad) (joinParts wBad.relParts)).classes = some [] ∧
      (mkCSharpFile (pathOf fsMixed wBad) (joinParts wBad.relParts)).interfaces = some [] ∧
      (mkCSharpFile (pathOf fsMixed wBad) (joinParts wBad.relParts)).enums = some []) := by
  have h1 : wBad ∈ candidateFiles fsMixed := by decide
  exact ⟨h1, rfl, (c3_failed_file_retained fsMixed).2 wBad h1 rfl⟩

/-- Claim C6: after any extraction operation, the record's entity lists
are never absent — each is `some` list; a file with zero matches of a
kind (and an unreadable file) carries `some []` for that kind. -/
theorem c6_lists_never_null (p r : Chars) (content : Option Chars) :
    ((parseCSharpFileWith (mkCSharpFile p r) content).classes ≠ none ∧
     (parseCSharpFileWith (mkCSharpFile p r) content).interfaces ≠ none ∧
     (parseCSharpFileWith (mkCSharpFile p r) content).enums ≠ none) ∧
    (∀ cd, content = some cd →
      (scanDecls matchClassAt cd = [] →
        (parseCSharpFileWith (mkCSharpFile p r) content).classes = some []) ∧
      (scanDecls matchInterfaceAt cd = [] →
        (parseCSharpFileWith (mkCSharpFile p r) content).interfaces = some []) ∧
      (scanDecls matchEnumAt cd = [] →
        (parseCSharpFileWith (mkCSharpFile p r) content).enums = some [])) ∧
    (content = none →
      (parseCSharpFileWith (mkCSharpFile p r) content).classes = some [] ∧
      (parseCSharpFileWith (mkCSharpFile p r) content).interfaces = some [] ∧
      (parseCSharpFileWith (mkCSharpFile p r) content).enums = some []) := by
  cases content with
  | none =>
    refine ⟨⟨?_, ?_, ?_⟩, ?_, ?_⟩
    · simp [parseCSharpFileWith, mkCSharpFile, postInit]
    · simp [parseCSharpFileWith, mkCSharpFile, postInit]
    · simp [parseCSharpFileWith, mkCSharpFile, postInit]
    · intro cd h
      cases h
    · intro _
      exact ⟨rfl, rfl, rfl⟩
  | some cd =>
    refine ⟨⟨?_, ?_, ?_⟩, ?_, ?_⟩
    · simp [parseCSharpFileWith]
    · simp [parseCSharpFileWith]
    · simp [parseCSharpFileWith]
    · intro cd2 h
      cases h
      refine ⟨?_, ?_, ?_⟩
      · intro h2
        simp [parseCSharpFileWith, mkCSharpFile, postInit, h2]
      · intro h2
        simp [parseCSharpFileWith, mkCSharpFile, postInit, h2]
      · intro h2
        simp [parseCSharpFileWith, mkCSharpFile, postInit, h2]
    · intro h
      cases h

/-- Claim C6, witness: a file with zero declarations of any kind yields
`some []` for all three entity lists. -/
theorem c6_witness :
    scanDecls matchClassAt c6content = [] ∧
    scanDecls matchInterfaceAt c6content = [] ∧
    scanDecls matchEnumAt c6content = [] ∧
    (parseCSharpFileWith (mkCSharpFile [] []) (some c6content)).classes = some [] ∧
    (parseCSharpFileWith (mkCSharpFile [] []) (some c6content)).interfaces = some [] ∧
    (parseCSharpFileWith (mkCSharpFile [] []) (some c6content)).enums = some [] := by
  have h := (c6_lists_never_null [] [] (some c6content)).2.1 c6content rfl
  have e1 : scanDecls matchClassAt c6content = [] := by decide
  have e2 : scanDecls matchInterfaceAt c6content = [] := by decide
  have e3 : scanDecls matchEnumAt c6content = [] := by decide
  exact ⟨e1, e2, e3, h.1 e1, h.2.1 e2, h.2.2 e3⟩

/-- Claim C9: for every record list, the overview listing embedded in the
prompt is the first-20 prefix of the full per-file summary list — a fixed
bound independent of the input — while the reported file count and the
full summary list cover all files. -/
theorem c9_capped_listing (rootPath : Chars) (sln proj : List Chars)
    (files : List CSharpFile) :
    (overviewListing (getProjectStructure rootPath sln proj files)).length ≤ 20 ∧
    overviewListing (getProjectStructure rootPath sln proj files) =
      ((getProjectStructure rootPath sln proj files).csharpFiles.map
        (fun fi => (fi.relativePath, fi.classesCount))).take 20 ∧
    overviewCSharpFileCount (getProjectStructure rootPath sln proj files) =
      files.length ∧
    (getProjectStructure rootPath sln proj files).csharpFiles.length =
      files.length := by
  refine ⟨?_, ?_, ?_, ?_⟩
  · simp only [overviewListing, List.length_map, List.length_take]
    omega
  · simp [overviewListing, List.map_take]
  · simp [overviewCSharpFileCount, getProjectStructure]
  · simp [getProjectStructure]

/-- Claim C10: `.sln`/`.csproj` discovery filters only on the substring
`".git"` in the rendered path; any other walked file with the right
extension is included, the directory exclude-set notwithstanding. -/
theorem c10_descriptor_discovery (fs : FileSystem) (w : WalkedFile)
    (hw : w ∈ walkAll fs) :
    (endsWithCh ".sln".data (fileName w) = true →
      containsSeq ".git".data (pathOf fs w) = false →
      pathOf fs w ∈ findSolutionFiles fs) ∧
    (endsWithCh ".csproj".data (fileName w) = true →
      containsSeq ".git".data (pathOf fs w) = false →
      pathOf fs w ∈ findProjectFiles fs) := by
  constructor
  · intro h1 h2
    simp only [findSolutionFiles]
    exact List.mem_map_of_mem _ (List.mem_filter.mpr ⟨hw, by simp [h1, h2]⟩)
  · intro h1 h2
    simp only [findProjectFiles]
    exact List.mem_map_of_mem _ (List.mem_filter.mpr ⟨hw, by simp [h1, h2]⟩)

/-- Claim C10, witness: `proj/bin/App.sln` sits below the excluded
directory name `bin` and still appears in the solution-file list; the
analogous `.csproj` under `packages` appears in the project-file list. -/
theorem c10_witness :
    (wSln ∈ walkAll fsBuild ∧ isExcluded fsBuild wSln = true ∧
      pathOf fsBuild wSln ∈ findSolutionFiles fsBuild) ∧
    (wProj ∈ walkAll fsBuild ∧ isExcluded fsBuild wProj = true ∧
      pathOf fsBuild wProj ∈ findProjectFiles fsBuild) := by
  have h1 : wSln ∈ walkAll fsBuild := by decide
  have h2 : wProj ∈ walkAll fsBuild := by decide
  exact ⟨⟨h1, by decide,
      (c10_descriptor_discovery fsBuild wSln h1).1 (by decide) (by decide)⟩,
    ⟨h2, by decide,
      (c10_descriptor_discovery fsBuild wProj h2).2 (by decide) (by decide)⟩⟩

/-- Claim C5: on the spec's end-to-end input, extraction yields namespace
`App.Models`, exactly one type entity `Order`, whose single method is
`GetTotal` with return type `int` and parameters
`[(int, qty), (decimal, price)]`. -/
theorem c5_end_to_end :
    parseCSharpFileWith (mkCSharpFile "Order.cs".data "Order.cs".data)
        (some c5content) =
      { path := "Order.cs".data, relativePath := "Order.cs".data,
        namespaceName := some "App.Models".data,
        classes := some [{ name := "Order".data,
                           methods := [{ name := "GetTotal".data,
                                         returnType := "int".data,
                                         parameters :=
                                           [{ ptype := "int".data,
                                              pname := "qty".data },
                                            { ptype := "decimal".data,
                                              pname := "price".data }] }],
                           fullCode := "public class Order \x7b...".data }],
        interfaces := some [], enums := some [] } := by decide

theorem all_space_of_strip_empty (s : Chars) (h : stripCh s = []) :
    ∀ c ∈ s, isSpaceCh c = true := by
  unfold stripCh at h
  rw [List.reverse_eq_nil_iff, List.dropWhile_eq_nil_iff] at h
  have hdrop : ∀ c ∈ s.dropWhile isSpaceCh, isSpaceCh c = true := by
    intro c hc
    exact h c (List.mem_reverse.mpr hc)
  intro c hc
  rcases List.mem_append.mp
      ((List.takeWhile_append_dropWhile (p := isSpaceCh) (l := s)) ▸ hc) with h1 | h2
  · exact List.mem_takeWhile_imp h1
  · exact hdrop c h2

theorem splitComma_no_comma (s : Chars) :
    ∀ acc, (∀ c ∈ s, ¬ c = ',') → splitComma acc s = [acc.reverse ++ s] := by
  induction s with
  | nil => intro acc _; simp [splitComma]
  | cons c rest ih =>
    intro acc hc
    have hne : ¬ c = ',' := hc c (List.mem_cons_self c rest)
    rw [splitComma, if_neg hne, ih (c :: acc) (fun d hd => hc d (List.mem_cons_of_mem _ hd))]
    simp

/-- Claim C7: each comma-separated parameter fragment is stripped, split
on whitespace, and kept as the `(type, name)` pair of its first two tokens
exactly when at least two tokens exist; fragments with fewer tokens are
dropped silently. -/
theorem c7_parameter_tokenization (ps : Chars) :
    parseParameters ps = (splitComma [] ps).filterMap (fun frag =>
      match splitWsAux [] (stripCh frag) with
      | t0 :: t1 :: _ => some ⟨t0, t1⟩
      | _ => none) := by
  have hfun : (fun frag =>
      let f := stripCh frag
      if f.isEmpty then none
      else
        match splitWsAux [] f with
        | t0 :: t1 :: _ => some (⟨t0, t1⟩ : Param)
        | _ => none) = (fun frag =>
      match splitWsAux [] (stripCh frag) with
      | t0 :: t1 :: _ => some (⟨t0, t1⟩ : Param)
      | _ => none) := by
    funext frag
    by_cases he : (stripCh frag).isEmpty
    · have : stripCh frag = [] := by
        cases hx : stripCh frag with
        | nil => rfl
        | cons a b => rw [hx] at he; simp [List.isEmpty] at he
      simp only [this]
      rfl
    · simp only [if_neg he]
  by_cases h : (stripCh ps).isEmpty
  · have hnil : stripCh ps = [] := by
      cases hx : stripCh ps with
      | nil => rfl
      | cons a b => rw [hx] at h; simp [List.isEmpty] at h
    have hsp := all_space_of_strip_empty ps hnil
    have hnc : ∀ c ∈ ps, ¬ c = ',' := by
      intro c hc hcomma
      have := hsp c hc
      rw [hcomma] at this
      simp [isSpaceCh] at this
    rw [parseParameters, if_pos h, splitComma_no_comma ps [] hnc]
    simp [hnil]
    rfl
  · rw [parseParameters, if_neg h, hfun]

theorem braceBal_append (a b : Chars) :
    braceBal (a ++ b) = braceBal a + braceBal b := by
  induction a with
  | nil => simp [braceBal]
  | cons c rest ih => simp [braceBal, ih, add_assoc]

theorem braceBal_pos_mem (l : Chars) (h : 0 < braceBal l) : '{' ∈ l := by
  induction l with
  | nil => simp [braceBal] at h
  | cons c rest ih =>
    by_cases hc : c = '{'
    · rw [hc]
      exact List.mem_cons_self _ _
    · have hv : braceVal c ≤ 0 := by
        unfold braceVal
        rw [if_neg hc]
        split <;> omega
      have : 0 < braceBal rest := by
        rw [braceBal] at h
        omega
      exact List.mem_cons_of_mem _ (ih this)

theorem CF_nil (cnt : Int) (inC : Bool) (k : Nat) : ¬ CF [] cnt inC k := by
  rintro ⟨h, _⟩
  simp at h

theorem CF_zero_iff (c : Char) (rest : Chars) (cnt : Int) (inC : Bool) :
    CF (c :: rest) cnt inC 0 ↔ (c = '}' ∧ cnt + braceVal c = 0 ∧ inC = true) := by
  unfold CF
  constructor
  · rintro ⟨h, hget, hbal, hin⟩
    have hc : c = '}' := hget
    refine ⟨hc, ?_, ?_⟩
    · simpa [braceBal, hc, braceVal] using hbal
    · rcases hin with hin | hin
      · exact hin
      · simp at hin
  · rintro ⟨hc, hbal, hin⟩
    refine ⟨by simp, hc, ?_, Or.inl hin⟩
    simpa [braceBal, braceVal, hc] using hbal

theorem CF_succ_iff (c : Char) (rest : Chars) (cnt : Int) (inC : Bool) (k : Nat) :
    CF (c :: rest) cnt inC (k + 1) ↔
      CF rest (cnt + braceVal c) (if c = '{' then true else inC) k := by
  unfold CF
  constructor
  · rintro ⟨h, hget, hbal, hin⟩
    have hk : k < rest.length := by simpa using h
    refine ⟨hk, ?_, ?_, ?_⟩
    · simpa using hget
    · rw [show ((c :: rest).take (k + 1 + 1)) = c :: rest.take (k + 1) from rfl,
        braceBal] at hbal
      omega
    · by_cases hc : c = '{'
      · simp [hc]
      · rw [if_neg hc]
        rcases hin with hin | hin
        · exact Or.inl hin
        · rw [show ((c :: rest).take (k + 1)) = c :: rest.take k from rfl] at hin
          rcases List.mem_cons.mp hin with he | hm
          · exact absurd he.symm hc
          · exact Or.inr hm
  · rintro ⟨h, hget, hbal, hin⟩
    have hk : k + 1 < (c :: rest).length := by simpa using h
    refine ⟨hk, ?_, ?_, ?_⟩
    · simpa using hget
    · rw [show ((c :: rest).take (k + 1 + 1)) = c :: rest.take (k + 1) from rfl,
        braceBal]
      omega
    · by_cases hc : c = '{'
      · refine Or.inr ?_
        rw [show ((c :: rest).take (k + 1)) = c :: rest.take k from rfl, hc]
        exact List.mem_cons_self _ _
      · rw [if_neg hc] at hin
        rcases hin with hin | hin
        · exact Or.inl hin
        · refine Or.inr ?_
          rw [show ((c :: rest).take (k + 1)) = c :: rest.take k from rfl]
          exact List.mem_cons_of_mem _ hin

theorem closeSpec_shift (c : Char) (rest : Chars) (cnt : Int) (inC : Bool)
    (i r : Nat) (h0 : ¬ CF (c :: rest) cnt inC 0) :
    (∃ k, r = (i + 1) + k ∧
        CF rest (cnt + braceVal c) (if c = '{' then true else inC) k ∧
        ∀ j < k, ¬ CF rest (cnt + braceVal c) (if c = '{' then true else inC) j) ↔
    (∃ k, r = i + k ∧ CF (c :: rest) cnt inC k ∧
        ∀ j < k, ¬ CF (c :: rest) cnt inC j) := by
  constructor
  · rintro ⟨k, hr, hcf, hleast⟩
    refine ⟨k + 1, by omega, (CF_succ_iff c rest cnt inC k).mpr hcf, ?_⟩
    intro j hj
    cases j with
    | zero => exact h0
    | succ j' =>
      intro hcon
      exact hleast j' (by omega) ((CF_succ_iff c rest cnt inC j').mp hcon)
  · rintro ⟨k, hr, hcf, hleast⟩
    cases k with
    | zero => exact absurd hcf h0
    | succ k' =>
      refine ⟨k', by omega, (CF_succ_iff c rest cnt inC k').mp hcf, ?_⟩
      intro j hj hcon
      exact hleast (j + 1) (by omega) ((CF_succ_iff c rest cnt inC j).mpr hcon)

theorem findCloseAux_some_iff (s : Chars) :
    ∀ (i : Nat) (cnt : Int) (inC : Bool) (r : Nat),
      findCloseAux s i cnt inC = some r ↔
        ∃ k, r = i + k ∧ CF s cnt inC k ∧ ∀ j < k, ¬ CF s cnt inC j := by
  induction s with
  | nil =>
    intro i cnt inC r
    constructor
    · intro h
      simp [findCloseAux] at h
    · rintro ⟨k, _, hcf, _⟩
      exact absurd hcf (CF_nil cnt inC k)
  | cons c rest ih =>
    intro i cnt inC r
    by_cases hc1 : c = '{'
    · subst hc1
      rw [show findCloseAux ('{' :: rest) i cnt inC =
          findCloseAux rest (i + 1) (cnt + 1) true from rfl,
        ih (i + 1) (cnt + 1) true r]
      have h0 : ¬ CF ('{' :: rest) cnt inC 0 := by
        rw [CF_zero_iff]
        rintro ⟨h, _, _⟩
        exact absurd h (by decide)
      have hs := closeSpec_shift '{' rest cnt inC i r h0
      simpa [braceVal] using hs
    · by_cases hc2 : c = '}'
      · subst hc2
        by_cases hcond : (cnt - 1 = 0 ∧ inC = true)
        · have hfc : findCloseAux ('}' :: rest) i cnt inC = some i := by
            show (if cnt - 1 = 0 ∧ inC = true then some i
              else findCloseAux rest (i + 1) (cnt - 1) inC) = some i
            exact if_pos hcond
          rw [hfc]
          have hCF0 : CF ('}' :: rest) cnt inC 0 := by
            rw [CF_zero_iff]
            refine ⟨rfl, ?_, hcond.2⟩
            have := hcond.1
            simp [braceVal]
            omega
          constructor
          · intro h
            have hr : r = i := (Option.some.injEq i r ▸ h).symm
            subst hr
            exact ⟨0, by omega, hCF0, fun j hj => absurd hj (Nat.not_lt_zero j)⟩
          · rintro ⟨k, hr, hcf, hleast⟩
            cases k with
            | zero =>
              rw [show r = i by omega]
            | succ k' => exact absurd hCF0 (hleast 0 (Nat.succ_pos k'))
        · have hfc : findCloseAux ('}' :: rest) i cnt inC =
              findCloseAux rest (i + 1) (cnt - 1) inC := by
            show (if cnt - 1 = 0 ∧ inC = true then some i
              else findCloseAux rest (i + 1) (cnt - 1) inC) = _
            exact if_neg hcond
          rw [hfc, ih (i + 1) (cnt - 1) inC r]
          have h0 : ¬ CF ('}' :: rest) cnt inC 0 := by
            rw [CF_zero_iff]
            rintro ⟨_, hbal, hin⟩
            refine hcond ⟨?_, hin⟩
            simp [braceVal] at hbal
            omega
          have hs := closeSpec_shift '}' rest cnt inC i r h0
          have hb : braceVal '}' = -1 := by decide
          rw [hb] at hs
          have he : cnt + -1 = cnt - 1 := by omega
          rw [he] at hs
          simpa using hs
      · have hfc : findCloseAux (c :: rest) i cnt inC =
            findCloseAux rest (i + 1) cnt inC := by
          simp only [findCloseAux, if_neg hc1, if_neg hc2]
        rw [hfc, ih (i + 1) cnt inC r]
        have h0 : ¬ CF (c :: rest) cnt inC 0 := by
          rw [CF_zero_iff]
          rintro ⟨h, _, _⟩
          exact hc2 h
        have hs := closeSpec_shift c rest cnt inC i r h0
        have hb : braceVal c = 0 := by
          unfold braceVal
          rw [if_neg hc1, if_neg hc2]
        rw [hb] at hs
        simpa [hc1] using hs

theorem CF_start_iff_ClosesAt (s : Chars) (k : Nat) :
    CF s 0 false k ↔ ClosesAt s k := by
  unfold CF ClosesAt
  constructor
  · rintro ⟨h, hget, hbal, _⟩
    refine ⟨h, hget, by simpa using hbal, ⟨k, le_refl k, ?_⟩⟩
    have htake : s.take (k + 1) = s.take k ++ ['}'] := by
      have hk : s[k]? = some '}' := by
        rw [List.getElem?_eq_getElem h]
        simpa [List.get_eq_getElem] using hget
      rw [List.take_succ, hk]
      rfl
    rw [htake, braceBal_append] at hbal
    have : braceBal ['}'] = -1 := by decide
    rw [this] at hbal
    omega
  · rintro ⟨h, hget, hbal, ⟨j, hj, hpos⟩⟩
    refine ⟨h, hget, by simpa using hbal, Or.inr ?_⟩
    have hmem : '{' ∈ s.take j := braceBal_pos_mem _ hpos
    have hsub : s.take j = (s.take k).take j := by
      rw [List.take_take, Nat.min_eq_left hj]
    rw [hsub] at hmem
    exact List.take_subset j (s.take k) hmem

/-- Claim C4, amended: the block scan from a type match closes exactly at
the least index where the running brace balance returns to zero after
having gone positive; when no such index exists the entity is NOT
skipped — it is kept in the file's record with an empty method list — and
every class match still contributes exactly one entity to the record. -/
theorem c4_block_close (s nm : Chars) (len : Nat) (p q : Chars) :
    (∀ r, findCloseAux s 0 0 false = some r ↔
      (ClosesAt s r ∧ ∀ j < r, ¬ ClosesAt s j)) ∧
    (findCloseAux s 0 0 false = none →
      (extractClassInfoAt s 0 nm len).methods = []) ∧
    (extractClassInfoAt s 0 nm len).name = nm ∧
    (parseCSharpFileWith (mkCSharpFile p q) (some s)).classes =
      some ((scanDecls matchClassAt s).map (fun t =>
        extractClassInfoAt s t.1 t.2.1 t.2.2)) := by
  refine ⟨?_, ?_, rfl, ?_⟩
  · intro r
    rw [findCloseAux_some_iff s 0 0 false r]
    constructor
    · rintro ⟨k, hk, hcf, hleast⟩
      have hrk : r = k := by omega
      subst hrk
      exact ⟨(CF_start_iff_ClosesAt s r).mp hcf,
        fun j hj hcl => hleast j hj ((CF_start_iff_ClosesAt s j).mpr hcl)⟩
    · rintro ⟨hcl, hleast⟩
      exact ⟨r, by omega, (CF_start_iff_ClosesAt s r).mpr hcl,
        fun j hj hcf => hleast j hj ((CF_start_iff_ClosesAt s j).mp hcf)⟩
  · intro h
    simp [extractClassInfoAt, List.drop_zero, h]
  · simp [parseCSharpFileWith, mkCSharpFile, postInit]

/-- Claim C4, counterexample: `public class Foo \x7b` has a class match
with no closeable block, yet the entity `Foo` is NOT omitted from the
record — it appears with an empty method list. -/
theorem c4_counterexample :
    (parseCSharpFileWith (mkCSharpFile [] []) (some c4cex)).classes =
      some [{ name := "Foo".data, methods := [],
              fullCode := "public class Foo \x7b...".data }] := by decide

/-- Claim C4, witness: on `class A \x7b \x7d` the scan closes at index 10,
which satisfies the balance condition and is least among such indices. -/
theorem c4_witness :
    findCloseAux c4sample 0 0 false = some 10 ∧ ClosesAt c4sample 10 ∧
    ∀ j < 10, ¬ ClosesAt c4sample j := by
  have e : findCloseAux c4sample 0 0 false = some 10 := by decide
  have h := ((c4_block_close c4sample [] 0 [] []).1 10).mp e
  exact ⟨e, h.1, h.2⟩

theorem fcN_outer (i : Nat) (rest : Chars) :
    findCloseAux (outerHeaderD ++ rest) i 0 false =
      findCloseAux rest (i + 21) 1 true := rfl

theorem fcN_D1 (i : Nat) (rest : Chars) :
    findCloseAux (methodDeclD ++ rest) i 1 true =
      findCloseAux rest (i + 24) 1 true := rfl

theorem fcN_D2 (i : Nat) (rest : Chars) :
    findCloseAux (methodDeclD ++ rest) i 2 true =
      findCloseAux rest (i + 24) 2 true := rfl

theorem fcN_inner (i : Nat) (rest : Chars) :
    findCloseAux (innerHeaderD ++ rest) i 1 true =
      findCloseAux rest (i + 21) 2 true := rfl

theorem fcN_close (i : Nat) :
    findCloseAux nestedCloseD i 2 true = some (i + 2) := rfl

theorem fc_repD1 (n : Nat) : ∀ (i : Nat) (rest : Chars),
    findCloseAux (repD n ++ rest) i 1 true =
      findCloseAux rest (i + 24 * n) 1 true := by
  induction n with
  | zero =>
    intro i rest
    simp [repD]
  | succ n ih =>
    intro i rest
    rw [show repD (n + 1) = methodDeclD ++ repD n from rfl, List.append_assoc,
      fcN_D1, ih]
    congr 1
    ring

theorem fc_repD2 (n : Nat) : ∀ (i : Nat) (rest : Chars),
    findCloseAux (repD n ++ rest) i 2 true =
      findCloseAux rest (i + 24 * n) 2 true := by
  induction n with
  | zero =>
    intro i rest
    simp [repD]
  | succ n ih =>
    intro i rest
    rw [show repD (n + 1) = methodDeclD ++ repD n from rfl, List.append_assoc,
      fcN_D2, ih]
    congr 1
    ring

theorem repD_length (n : Nat) : (repD n).length = 24 * n := by
  induction n with
  | zero => simp [repD]
  | succ n ih =>
    rw [show repD (n + 1) = methodDeclD ++ repD n from rfl, List.length_append, ih]
    simp [methodDeclD]
    ring

theorem mkNested_length (n m : Nat) :
    (mkNested n m).length = 24 * n + 24 * m + 45 := by
  simp [mkNested, List.length_append, repD_length,
    outerHeaderD, innerHeaderD, nestedCloseD]
  ring

theorem fc_mkNested (n m : Nat) :
    findCloseAux (mkNested n m) 0 0 false = some (24 * n + 24 * m + 44) := by
  rw [mkNested, List.append_assoc, List.append_assoc, List.append_assoc,
    fcN_outer, fc_repD1, fcN_inner, fc_repD2, fcN_close]
  congr 1
  ring

theorem smN_D (rest : Chars) :
    scanMethodsAux (methodDeclD ++ rest) 0 =
      methodRawD :: scanMethodsAux rest 0 := rfl

theorem smN_outer (rest : Chars) :
    scanMethodsAux (outerHeaderD ++ rest) 0 = scanMethodsAux rest 0 := rfl

theorem smN_inner (rest : Chars) :
    scanMethodsAux (innerHeaderD ++ rest) 0 = scanMethodsAux rest 0 := rfl

theorem smN_close : scanMethodsAux nestedCloseD 0 = [] := rfl

theorem sm_repD (n : Nat) : ∀ (rest : Chars),
    scanMethodsAux (repD n ++ rest) 0 =
      List.replicate n methodRawD ++ scanMethodsAux rest 0 := by
  induction n with
  | zero =>
    intro rest
    simp [repD]
  | succ n ih =>
    intro rest
    rw [show repD (n + 1) = methodDeclD ++ repD n from rfl, List.append_assoc,
      smN_D, ih]
    rfl

theorem sm_mkNested (n m : Nat) :
    scanMethodsAux (mkNested n m) 0 =
      List.replicate n methodRawD ++ List.replicate m methodRawD := by
  rw [mkNested, List.append_assoc, List.append_assoc, List.append_assoc,
    smN_outer, sm_repD, smN_inner, sm_repD, smN_close]
  simp

theorem extractMethods_mkNested (n m : Nat) :
    extractMethods (mkNested n m) = List.replicate (n + m) methodEntryD := by
  rw [extractMethods, sm_mkNested, List.map_append, List.map_replicate,
    List.map_replicate, ← List.replicate_add]
  rfl

/-- Claim C8: for an outer type declaration with `n` pattern-matching
methods at the top level of its block and `m` methods nested in an inner
type declared within that block, the brace scan closes the outer block at
its own closing brace, and the method list returned for the outer type is
`n + m` copies of the method entry — in particular it contains at least
the `n` outer methods. -/
theorem c8_nested_methods (n m : Nat) :
    (scanDecls matchClassAt (mkNested n m)).head? =
      some (0, "Outer".data, 20) ∧
    (extractClassInfoAt (mkNested n m) 0 "Outer".data 20).methods =
      List.replicate (n + m) methodEntryD ∧
    List.Sublist (List.replicate n methodEntryD)
      ((extractClassInfoAt (mkNested n m) 0 "Outer".data 20).methods) := by
  have hm : (extractClassInfoAt (mkNested n m) 0 "Outer".data 20).methods =
      List.replicate (n + m) methodEntryD := by
    have harith : 24 * n + 24 * m + 44 + 1 - 0 = (mkNested n m).length := by
      rw [mkNested_length]
      omega
    unfold extractClassInfoAt
    simp only [List.drop_zero, fc_mkNested, harith, List.take_length]
    exact extractMethods_mkNested n m
  refine ⟨rfl, hm, ?_⟩
  rw [hm]
  exact (List.replicate_sublist_replicate methodEntryD).mpr (Nat.le_add_right n m)
